import Mathlib

/-!
Verification of the data-preparation module (`data.py`) of the
multimodal-recommendation repository: a shallow embedding of the
`DataWrapper` / `RecData` classes and proofs about them.

Python idioms are modelled explicitly:
* a Python `dict` is an insertion-ordered association list whose
  assignment updates the value in place when the key exists;
* fallible operations (indexing, assertion failure, missing file)
  return `Option`, where `none` is a raised exception;
* `assert (cond, msg)` asserts the truthiness of a tuple, which in
  Python is truthy iff the tuple is nonempty.
-/

/-- Python truthiness of a tuple: a tuple of `arity` elements is truthy iff
it is nonempty, regardless of the values of its elements.  `assert (c, m)`
in Python asserts the truthiness of the two-element tuple, not of `c`. -/
def pyTupleTruthy (arity : Nat) : Bool := decide (arity ≠ 0)

/-- Python `d[k] = v` on a dict modelled as an ordered association list:
if `k` is already a key its value is updated in place (keeping its
position), otherwise the pair is appended at the end. -/
def pyDictInsert {κ ν : Type} [DecidableEq κ] (d : List (κ × ν)) (k : κ) (v : ν) :
    List (κ × ν) :=
  if (d.lookup k).isSome then d.map (fun p => if p.1 = k then (k, v) else p)
  else d ++ [(k, v)]

/-- Overwriting the value at an existing key: lookup finds the new value. -/
theorem lookup_map_overwrite {κ ν : Type} [DecidableEq κ]
    (d : List (κ × ν)) (k : κ) (v : ν) (hin : (d.lookup k).isSome) :
    (d.map (fun p => if p.1 = k then (k, v) else p)).lookup k = some v := by
  induction d with
  | nil => simp [List.lookup] at hin
  | cons p rest ih =>
      obtain ⟨pk, pv⟩ := p
      rcases Decidable.em (pk = k) with hp | hp
      · subst hp
        simp [List.lookup_cons]
      · have hbeq : (k == pk) = false := beq_false_of_ne (fun h => hp h.symm)
        have hin' : (rest.lookup k).isSome := by
          simpa [List.lookup_cons, hbeq] using hin
        simp [List.lookup_cons, hp, hbeq, ih hin']

/-- Appending a fresh key at the end: lookup finds it. -/
theorem lookup_append_fresh {κ ν : Type} [DecidableEq κ]
    (d : List (κ × ν)) (k : κ) (v : ν) (hout : ¬(d.lookup k).isSome) :
    (d ++ [(k, v)]).lookup k = some v := by
  induction d with
  | nil => simp [List.lookup_cons]
  | cons p rest ih =>
      obtain ⟨pk, pv⟩ := p
      have hbeq : (k == pk) = false := by
        rcases Decidable.em ((k == pk) = true) with h | h
        · exact absurd (by simp [List.lookup_cons, h]) hout
        · simpa using h
      have hrest : ¬(rest.lookup k).isSome = true := by
        intro hc
        exact hout (by simp [List.lookup_cons, hbeq, hc])
      simpa [List.lookup_cons, hbeq] using ih hrest

/-- After `d[k] = v`, looking up `k` yields `v`. -/
theorem lookup_pyDictInsert {κ ν : Type} [DecidableEq κ]
    (d : List (κ × ν)) (k : κ) (v : ν) :
    (pyDictInsert d k v).lookup k = some v := by
  unfold pyDictInsert
  rcases Decidable.em ((d.lookup k).isSome = true) with hin | hin
  · rw [if_pos hin]
    exact lookup_map_overwrite d k v hin
  · rw [if_neg hin]
    exact lookup_append_fresh d k v hin

/-- Python `[l[i] for i in idx]`: `none` models the `IndexError` raised
at the first out-of-range index. -/
def pySelect {α : Type} (l : List α) : List Nat → Option (List α)
  | [] => some []
  | i :: rest => do
      let x ← l[i]?
      let xs ← pySelect l rest
      pure (x :: xs)

theorem pySelect_append {α : Type} (l : List α) (a b : List Nat) :
    pySelect l (a ++ b) = (do
      let x ← pySelect l a
      let y ← pySelect l b
      pure (x ++ y)) := by
  induction a with
  | nil =>
      simp [pySelect]
  | cons i rest ih =>
      simp only [List.cons_append, pySelect, List.append_eq]
      rw [ih]
      cases hi : l[i]? with
      | none => rfl
      | some x =>
          cases hr : pySelect l rest with
          | none => simp
          | some xs =>
              cases hb : pySelect l b with
              | none => simp
              | some ys => simp

/-- Selecting positions `0,...,n-1` from a list of length at least `n`
returns its first `n` elements. -/
theorem pySelect_range_take {α : Type} (l : List α) (n : Nat) (hn : n ≤ l.length) :
    pySelect l (List.range n) = some (l.take n) := by
  induction n with
  | zero => simp [pySelect]
  | succ m ih =>
      have hm : m ≤ l.length := Nat.le_of_succ_le hn
      have hlt : m < l.length := Nat.lt_of_succ_le hn
      have hone : pySelect l [m] = some [l[m]] := by
        simp [pySelect, List.getElem?_eq_getElem hlt]
      rw [List.range_succ, pySelect_append, ih hm, hone]
      show some (l.take m ++ [l[m]]) = some (l.take (m + 1))
      rw [List.take_concat_get' l m hlt]

/-- Selecting positions `0,...,len-1` from a list returns the list itself. -/
theorem pySelect_range_self {α : Type} (l : List α) :
    pySelect l (List.range l.length) = some l := by
  simpa using pySelect_range_take l l.length le_rfl

/-- State of `DataWrapper` (data.py lines 13-18). -/
structure DataWrapper where
  user_indices : List Int
  trans_indices : List (List Int)
  ground_truth : List (List Int)
  index : List (Int × Nat)
  deriving Repr, DecidableEq

/-- `DataWrapper.__init__`. -/
def DataWrapper.empty : DataWrapper := ⟨[], [], [], []⟩

/-- `len(self)` (data.py lines 52-53). -/
def DataWrapper.size (w : DataWrapper) : Nat := w.user_indices.length

/-- `DataWrapper.append` (data.py lines 20-32).  The `assert` on line 24 is
applied to a parenthesized two-element tuple `(cond, message)`, so what is
asserted is the truthiness of that tuple. -/
def DataWrapper.append (w : DataWrapper) (user_indice : Int)
    (trans_indices : List Int) (ground_truth_indices : Option (List Int)) :
    Option DataWrapper :=
  if pyTupleTruthy 2 then
    let u := w.user_indices ++ [user_indice]
    let t := w.trans_indices ++ [trans_indices]
    let g := match ground_truth_indices with
      | some gi => w.ground_truth ++ [gi]
      | none => w.ground_truth
    some { user_indices := u, trans_indices := t, ground_truth := g,
           index := pyDictInsert w.index user_indice (u.length - 1) }
  else none

/-- `append` always takes the truthy branch of the tuple assert. -/
theorem DataWrapper.append_eq (w : DataWrapper) (u : Int) (t : List Int)
    (g : Option (List Int)) :
    w.append u t g = some
      { user_indices := w.user_indices ++ [u],
        trans_indices := w.trans_indices ++ [t],
        ground_truth := match g with
          | some gi => w.ground_truth ++ [gi]
          | none => w.ground_truth,
        index := pyDictInsert w.index u ((w.user_indices ++ [u]).length - 1) } :=
  rfl

/-- `DataWrapper.shuffle` (data.py lines 45-50): it builds
`indices = list(range(len(self)))` and re-indexes the three lists with it;
the `ground_truth` list is only re-indexed when it is nonempty. -/
def DataWrapper.shuffle (w : DataWrapper) : Option DataWrapper := do
  let indices := List.range w.size
  let u ← pySelect w.user_indices indices
  let t ← pySelect w.trans_indices indices
  let g ← if w.ground_truth.isEmpty then pure w.ground_truth
          else pySelect w.ground_truth indices
  pure { w with user_indices := u, trans_indices := t, ground_truth := g }

/-- `shuffle` on an explicit wrapper whose parallel lists have matching
lengths returns the wrapper unchanged. -/
theorem shuffle_mk_eq (u : List Int) (t g : List (List Int))
    (ix : List (Int × Nat)) (ht : t.length = u.length)
    (hg : g = [] ∨ g.length = u.length) :
    DataWrapper.shuffle ⟨u, t, g, ix⟩ = some ⟨u, t, g, ix⟩ := by
  have hu := pySelect_range_self u
  have ht2 : pySelect t (List.range u.length) = some t := by
    rw [← ht]; exact pySelect_range_self t
  rcases hg with hg | hg
  · subst hg
    simp [DataWrapper.shuffle, DataWrapper.size, hu, ht2]
  · rcases Decidable.em (g = []) with he | he
    · subst he
      simp [DataWrapper.shuffle, DataWrapper.size, hu, ht2]
    · have hg2 : pySelect g (List.range u.length) = some g := by
        rw [← hg]; exact pySelect_range_self g
      have hne : g.isEmpty = false := by
        simpa [List.isEmpty_iff] using he
      simp [DataWrapper.shuffle, DataWrapper.size, hu, ht2, hg2, hne]

/-- C4: `DataWrapper.shuffle` is the identity operation: the index list it
builds is `list(range(len(self)))`, the identity permutation, so on any
wrapper state whose parallel lists have matching lengths (as maintained by
`append`), `shuffle` succeeds and leaves `user_indices`, `trans_indices`
and `ground_truth` exactly as they were; in particular the
`shuffle train samples` step of `prepare_train` never reorders the train
samples. -/
theorem claim_C4_shuffle_identity (w : DataWrapper)
    (ht : w.trans_indices.length = w.user_indices.length)
    (hg : w.ground_truth = [] ∨ w.ground_truth.length = w.user_indices.length) :
    w.shuffle = some w := by
  obtain ⟨u, t, g, ix⟩ := w
  exact shuffle_mk_eq u t g ix ht hg

/-- C4 witness: a concrete wrapper with nonempty ground truth is left
unchanged by `shuffle`. -/
theorem claim_C4_shuffle_identity_witness :
    DataWrapper.shuffle ⟨[7, 3], [[1], [2, 5]], [[9], [4]], [(7, 0), (3, 1)]⟩ =
      some ⟨[7, 3], [[1], [2, 5]], [[9], [4]], [(7, 0), (3, 1)]⟩ :=
  claim_C4_shuffle_identity _ (by decide) (Or.inr (by decide))

/-- C5: `DataWrapper.append` never raises, even for a `user_indice` already
present in `self.index`: its duplicate-entry assert is applied to a
two-element tuple, hence always truthy.  Appending a duplicate appends a
second row (old rows are untouched, so the stale earlier row remains in
`user_indices` and `trans_indices`), the length grows by one, and
`index[user_indice]` is repointed to the new last position. -/
theorem claim_C5_append_total (w : DataWrapper) (u : Int) (t : List Int)
    (g : Option (List Int)) :
    ∃ w', w.append u t g = some w' ∧
      w'.user_indices = w.user_indices ++ [u] ∧
      w'.trans_indices = w.trans_indices ++ [t] ∧
      w'.size = w.size + 1 ∧
      w'.index.lookup u = some w.size ∧
      (∀ i, i < w.size → w'.user_indices[i]? = w.user_indices[i]?) := by
  refine ⟨_, w.append_eq u t g, rfl, rfl, ?_, ?_, ?_⟩
  · simp [DataWrapper.size]
  · have hlen : (w.user_indices ++ [u]).length - 1 = w.size := by
      simp [DataWrapper.size]
    rw [hlen, lookup_pyDictInsert]
  · intro i hi
    exact List.getElem?_append_left hi

/-- C5 witness: appending a duplicate `user_indice` succeeds, keeps the
stale row and repoints the index. -/
theorem claim_C5_append_total_witness :
    ∃ w', DataWrapper.append ⟨[4], [[0]], [], [(4, 0)]⟩ 4 [1] none = some w' ∧
      w'.user_indices = [4] ++ [4] ∧
      w'.trans_indices = [[0]] ++ [[1]] ∧
      w'.size = (DataWrapper.mk [4] [[0]] [] [(4, 0)]).size + 1 ∧
      w'.index.lookup 4 = some (DataWrapper.mk [4] [[0]] [] [(4, 0)]).size ∧
      (∀ i, i < (DataWrapper.mk [4] [[0]] [] [(4, 0)]).size →
        w'.user_indices[i]? = ([4] : List Int)[i]?) :=
  claim_C5_append_total ⟨[4], [[0]], [], [(4, 0)]⟩ 4 [1] none

/-- Configuration fields of `config` used by the data module. -/
structure Config where
  max_history_length : Nat
  top_k : Nat
  max_desc_length : Nat
  deriving Repr, DecidableEq

/-- Python `l[:-k]` for a nonnegative `k` (note `l[:-0]` is `l[:0] = []`). -/
def pySliceToNeg {α : Type} (l : List α) (k : Nat) : List α :=
  if k = 0 then [] else l.take (l.length - k)

/-- Python `l[-k:]` for a nonnegative `k` (note `l[-0:]` is `l[0:] = l`). -/
def pySliceFromNeg {α : Type} (l : List α) (k : Nat) : List α :=
  if k = 0 then l else l.drop (l.length - k)

/-- One group of `trans.groupby('user')` (data.py line 169): the dense user
index, the group's row indices (`df.index.to_list()`, line 171) and its item
column (`df['item'].to_list()`, line 172). -/
structure UserGroup where
  user : Int
  trans_indices : List Int
  item_indices : List Int
  deriving Repr, DecidableEq

/-- What the per-user branch of `prepare_train` appends: the train-wrapper
row (transaction indices) and the test-wrapper row (transaction indices and
ground-truth items), when present. -/
structure UserSplit where
  trainEntry : Option (List Int)
  testEntry : Option (List Int × List Int)
  deriving Repr, DecidableEq

/-- `test_users is not None and user_idx in test_users` (data.py line 173). -/
def isTestUser (test_users : Option (List Int)) (u : Int) : Bool :=
  match test_users with
  | none => false
  | some l => l.contains u

/-- `max(len(trans_indices)-self.config.top_k, self.config.max_history_length)`
(data.py line 188); Python would compute a negative difference where `Nat`
truncates to `0`, but the `max` with `max_history_length` erases the
difference. -/
def cutOffset (cfg : Config) (n : Nat) : Nat :=
  max (n - cfg.top_k) cfg.max_history_length

/-- The per-user branch structure of `prepare_train` (data.py lines 173-192). -/
def processUser (cfg : Config) (isTest : Bool)
    (trans_indices item_indices : List Int) : UserSplit :=
  if trans_indices.length < cfg.max_history_length ∨ isTest = true then
    if trans_indices.length = 1 then
      { trainEntry := none, testEntry := some ([], item_indices) }
    else if trans_indices.length < cfg.top_k then
      { trainEntry := none,
        testEntry := some (trans_indices.take 1, item_indices.drop 1) }
    else
      { trainEntry := none,
        testEntry := some (pySliceToNeg trans_indices cfg.top_k,
                           pySliceFromNeg item_indices cfg.top_k) }
  else
    { trainEntry := some (trans_indices.take (cutOffset cfg trans_indices.length)),
      testEntry :=
        if cutOffset cfg trans_indices.length < trans_indices.length then
          some (trans_indices.take (cutOffset cfg trans_indices.length),
                item_indices.drop (cutOffset cfg trans_indices.length))
        else none }

/-- The split computed for one groupby group. -/
def splitOf (cfg : Config) (test_users : Option (List Int)) (g : UserGroup) :
    UserSplit :=
  processUser cfg (isTestUser test_users g.user) g.trans_indices g.item_indices

/-- One iteration of the `for user_idx, df in self.trans.groupby('user')`
loop of `prepare_train`, threading the (train, test) wrapper pair. -/
def prepare_train_step (cfg : Config) (test_users : Option (List Int))
    (acc : DataWrapper × DataWrapper) (g : UserGroup) :
    Option (DataWrapper × DataWrapper) := do
  let s := splitOf cfg test_users g
  let tr ← match s.trainEntry with
    | some t => acc.1.append g.user t none
    | none => pure acc.1
  let te ← match s.testEntry with
    | some p => acc.2.append g.user p.1 (some p.2)
    | none => pure acc.2
  pure (tr, te)

/-- `RecData.prepare_train` (data.py lines 163-198) over the list of groupby
groups: process each user group into the two fresh wrappers, then shuffle the
train wrapper. -/
def prepare_train (cfg : Config) (test_users : Option (List Int))
    (groups : List UserGroup) : Option (DataWrapper × DataWrapper) := do
  let acc ← groups.foldlM (prepare_train_step cfg test_users)
    (DataWrapper.empty, DataWrapper.empty)
  let tr ← acc.1.shuffle
  pure (tr, acc.2)

/-- What one fold step over a user group does to the two wrappers. -/
theorem prepare_train_step_eq (cfg : Config) (tu : Option (List Int))
    (A B : DataWrapper) (g : UserGroup) :
    prepare_train_step cfg tu (A, B) g = some
      ((match (splitOf cfg tu g).trainEntry with
        | some t =>
            { user_indices := A.user_indices ++ [g.user],
              trans_indices := A.trans_indices ++ [t],
              ground_truth := A.ground_truth,
              index := pyDictInsert A.index g.user
                ((A.user_indices ++ [g.user]).length - 1) }
        | none => A),
       (match (splitOf cfg tu g).testEntry with
        | some p =>
            { user_indices := B.user_indices ++ [g.user],
              trans_indices := B.trans_indices ++ [p.1],
              ground_truth := B.ground_truth ++ [p.2],
              index := pyDictInsert B.index g.user
                ((B.user_indices ++ [g.user]).length - 1) }
        | none => B)) := by
  unfold prepare_train_step
  cases htE : (splitOf cfg tu g).trainEntry with
  | none =>
      cases hsE : (splitOf cfg tu g).testEntry with
      | none => simp [htE, hsE]
      | some p => simp [htE, hsE, DataWrapper.append_eq]
  | some t =>
      cases hsE : (splitOf cfg tu g).testEntry with
      | none => simp [htE, hsE, DataWrapper.append_eq]
      | some p => simp [htE, hsE, DataWrapper.append_eq]

/-- Characterization of the fold inside `prepare_train`: starting from
wrappers `A`, `B`, the fold appends per-group train and test rows in group
order and never fails. -/
theorem prepare_loop_spec (cfg : Config) (tu : Option (List Int))
    (groups : List UserGroup) :
    ∀ A B : DataWrapper,
    ∃ ixA ixB,
      groups.foldlM (prepare_train_step cfg tu) (A, B) = some
        ({ user_indices := A.user_indices ++
             groups.filterMap (fun g => ((splitOf cfg tu g).trainEntry).map (fun _ => g.user)),
           trans_indices := A.trans_indices ++
             groups.filterMap (fun g => (splitOf cfg tu g).trainEntry),
           ground_truth := A.ground_truth, index := ixA },
         { user_indices := B.user_indices ++
             groups.filterMap (fun g => ((splitOf cfg tu g).testEntry).map (fun _ => g.user)),
           trans_indices := B.trans_indices ++
             groups.filterMap (fun g => ((splitOf cfg tu g).testEntry).map Prod.fst),
           ground_truth := B.ground_truth ++
             groups.filterMap (fun g => ((splitOf cfg tu g).testEntry).map Prod.snd),
           index := ixB }) := by
  induction groups with
  | nil =>
      intro A B
      exact ⟨A.index, B.index, by simp⟩
  | cons g rest ih =>
      intro A B
      rw [List.foldlM_cons, prepare_train_step_eq]
      cases htE : (splitOf cfg tu g).trainEntry with
      | none =>
          cases hsE : (splitOf cfg tu g).testEntry with
          | none =>
              obtain ⟨ixA, ixB, hrec⟩ := ih A B
              refine ⟨ixA, ixB, ?_⟩
              simpa [List.filterMap_cons, htE, hsE] using hrec
          | some p =>
              obtain ⟨ixA, ixB, hrec⟩ := ih A
                { user_indices := B.user_indices ++ [g.user],
                  trans_indices := B.trans_indices ++ [p.1],
                  ground_truth := B.ground_truth ++ [p.2],
                  index := pyDictInsert B.index g.user
                    ((B.user_indices ++ [g.user]).length - 1) }
              refine ⟨ixA, ixB, ?_⟩
              simpa [List.filterMap_cons, htE, hsE, List.append_assoc] using hrec
      | some t =>
          cases hsE : (splitOf cfg tu g).testEntry with
          | none =>
              obtain ⟨ixA, ixB, hrec⟩ := ih
                { user_indices := A.user_indices ++ [g.user],
                  trans_indices := A.trans_indices ++ [t],
                  ground_truth := A.ground_truth,
                  index := pyDictInsert A.index g.user
                    ((A.user_indices ++ [g.user]).length - 1) } B
              refine ⟨ixA, ixB, ?_⟩
              simpa [List.filterMap_cons, htE, hsE, List.append_assoc] using hrec
          | some p =>
              obtain ⟨ixA, ixB, hrec⟩ := ih
                { user_indices := A.user_indices ++ [g.user],
                  trans_indices := A.trans_indices ++ [t],
                  ground_truth := A.ground_truth,
                  index := pyDictInsert A.index g.user
                    ((A.user_indices ++ [g.user]).length - 1) }
                { user_indices := B.user_indices ++ [g.user],
                  trans_indices := B.trans_indices ++ [p.1],
                  ground_truth := B.ground_truth ++ [p.2],
                  index := pyDictInsert B.index g.user
                    ((B.user_indices ++ [g.user]).length - 1) }
              refine ⟨ixA, ixB, ?_⟩
              simpa [List.filterMap_cons, htE, hsE, List.append_assoc] using hrec

/-- Auxiliary: filtering through `Option.map` does not change how many
entries survive. -/
theorem length_filterMap_map {α β γ : Type} (l : List α) (f : α → Option β)
    (h : α → β → γ) :
    (l.filterMap (fun a => (f a).map (h a))).length = (l.filterMap f).length := by
  induction l with
  | nil => rfl
  | cons a rest ih =>
      cases hf : f a <;> simp [List.filterMap_cons, hf, ih]

/-- Full characterization of `prepare_train`: it always succeeds, the train
wrapper receives exactly the groups with a train entry (in order, with no
ground truth), and the test wrapper exactly the groups with a test entry. -/
theorem prepare_train_spec (cfg : Config) (tu : Option (List Int))
    (groups : List UserGroup) :
    ∃ tr te : DataWrapper,
      prepare_train cfg tu groups = some (tr, te) ∧
      tr.user_indices =
        groups.filterMap (fun g => ((splitOf cfg tu g).trainEntry).map (fun _ => g.user)) ∧
      tr.trans_indices =
        groups.filterMap (fun g => (splitOf cfg tu g).trainEntry) ∧
      tr.ground_truth = [] ∧
      te.user_indices =
        groups.filterMap (fun g => ((splitOf cfg tu g).testEntry).map (fun _ => g.user)) ∧
      te.trans_indices =
        groups.filterMap (fun g => ((splitOf cfg tu g).testEntry).map Prod.fst) ∧
      te.ground_truth =
        groups.filterMap (fun g => ((splitOf cfg tu g).testEntry).map Prod.snd) := by
  obtain ⟨ixA, ixB, h⟩ := prepare_loop_spec cfg tu groups DataWrapper.empty DataWrapper.empty
  have h' : groups.foldlM (prepare_train_step cfg tu)
      (DataWrapper.empty, DataWrapper.empty) = some
      ({ user_indices :=
           groups.filterMap (fun g => ((splitOf cfg tu g).trainEntry).map (fun _ => g.user)),
         trans_indices := groups.filterMap (fun g => (splitOf cfg tu g).trainEntry),
         ground_truth := [], index := ixA },
       { user_indices :=
           groups.filterMap (fun g => ((splitOf cfg tu g).testEntry).map (fun _ => g.user)),
         trans_indices :=
           groups.filterMap (fun g => ((splitOf cfg tu g).testEntry).map Prod.fst),
         ground_truth :=
           groups.filterMap (fun g => ((splitOf cfg tu g).testEntry).map Prod.snd),
         index := ixB }) := by
    simpa [DataWrapper.empty] using h
  have hlen : (groups.filterMap (fun g => (splitOf cfg tu g).trainEntry)).length =
      (groups.filterMap (fun g => ((splitOf cfg tu g).trainEntry).map (fun _ => g.user))).length :=
    (length_filterMap_map groups (fun g => (splitOf cfg tu g).trainEntry)
      (fun g _ => g.user)).symm
  have hsh := shuffle_mk_eq
    (groups.filterMap (fun g => ((splitOf cfg tu g).trainEntry).map (fun _ => g.user)))
    (groups.filterMap (fun g => (splitOf cfg tu g).trainEntry))
    [] ixA hlen (Or.inl rfl)
  refine ⟨DataWrapper.mk
      (groups.filterMap (fun g => ((splitOf cfg tu g).trainEntry).map (fun _ => g.user)))
      (groups.filterMap (fun g => (splitOf cfg tu g).trainEntry)) [] ixA,
    DataWrapper.mk
      (groups.filterMap (fun g => ((splitOf cfg tu g).testEntry).map (fun _ => g.user)))
      (groups.filterMap (fun g => ((splitOf cfg tu g).testEntry).map Prod.fst))
      (groups.filterMap (fun g => ((splitOf cfg tu g).testEntry).map Prod.snd)) ixB,
    ?_, rfl, rfl, rfl, rfl, rfl, rfl⟩
  simp [prepare_train, h', hsh]

/-- A user group gets a train entry iff it has at least `max_history_length`
transactions and is not a designated test user (data.py line 173). -/
theorem trainEntry_isSome_iff (cfg : Config) (b : Bool) (ti ii : List Int) :
    (processUser cfg b ti ii).trainEntry.isSome = true ↔
      (cfg.max_history_length ≤ ti.length ∧ b = false) := by
  unfold processUser
  rcases Decidable.em (ti.length < cfg.max_history_length ∨ b = true) with h1 | h1
  · rw [if_pos h1]
    have hne : ¬(cfg.max_history_length ≤ ti.length ∧ b = false) := by
      rintro ⟨hle, hb⟩
      rcases h1 with h | h
      · omega
      · rw [hb] at h
        exact Bool.noConfusion h
    split_ifs <;> simpa using hne
  · rw [if_neg h1]
    push_neg at h1
    obtain ⟨hle, hb⟩ := h1
    have hb' : b = false := by
      cases b
      · rfl
      · exact absurd rfl hb
    simp [hle, hb']

/-- A user group gets a test entry iff it is in the test path (too little
history, or designated test user), or it is a train user whose history
strictly exceeds `max_history_length` while `top_k > 0` (the cut-off of
data.py lines 190-192). -/
theorem testEntry_isSome_iff (cfg : Config) (b : Bool) (ti ii : List Int) :
    (processUser cfg b ti ii).testEntry.isSome = true ↔
      (ti.length < cfg.max_history_length ∨ b = true ∨
        (0 < cfg.top_k ∧ cfg.max_history_length < ti.length)) := by
  unfold processUser
  rcases Decidable.em (ti.length < cfg.max_history_length ∨ b = true) with h1 | h1
  · rw [if_pos h1]
    have hr : ti.length < cfg.max_history_length ∨ b = true ∨
        (0 < cfg.top_k ∧ cfg.max_history_length < ti.length) := by
      rcases h1 with h | h
      · exact Or.inl h
      · exact Or.inr (Or.inl h)
    split_ifs <;> simpa using hr
  · rw [if_neg h1]
    push_neg at h1
    obtain ⟨hle, hb⟩ := h1
    have hb' : b = false := by
      cases b
      · rfl
      · exact absurd rfl hb
    have hc : (cutOffset cfg ti.length < ti.length) ↔
        (0 < cfg.top_k ∧ cfg.max_history_length < ti.length) := by
      unfold cutOffset
      omega
    by_cases h2 : cutOffset cfg ti.length < ti.length
    · rw [if_pos h2]
      simp only [Option.isSome_some, true_iff]
      exact Or.inr (Or.inr (hc.mp h2))
    · rw [if_neg h2]
      simp only [Option.isSome_none, Bool.false_eq_true, false_iff]
      rintro (h | h | hk)
      · omega
      · rw [hb'] at h
        exact Bool.noConfusion h
      · exact h2 (hc.mpr hk)

/-- In the train branch (enough history, not a test user) the split is the
`cut_offset` windowing of data.py lines 186-192. -/
theorem processUser_train_eq (cfg : Config) (b : Bool) (ti ii : List Int)
    (hle : cfg.max_history_length ≤ ti.length) (hb : b = false) :
    processUser cfg b ti ii =
      { trainEntry := some (ti.take (cutOffset cfg ti.length)),
        testEntry :=
          if cutOffset cfg ti.length < ti.length then
            some (ti.take (cutOffset cfg ti.length),
                  ii.drop (cutOffset cfg ti.length))
          else none } := by
  unfold processUser
  have h1 : ¬(ti.length < cfg.max_history_length ∨ b = true) := by
    rintro (h | h)
    · omega
    · rw [hb] at h
      exact Bool.noConfusion h
  rw [if_neg h1]

/-- Membership of a group's user in a per-group `filterMap` projection,
under distinct users: the user appears iff its own group survives. -/
theorem user_mem_filterMap_iff {β : Type} (groups : List UserGroup)
    (hnd : (groups.map UserGroup.user).Nodup) (g : UserGroup) (hg : g ∈ groups)
    (e : UserGroup → Option β) :
    (g.user ∈ groups.filterMap (fun g' => (e g').map (fun _ => g'.user))) ↔
      (e g).isSome = true := by
  constructor
  · intro hmem
    obtain ⟨g', hg', hmap⟩ := List.mem_filterMap.mp hmem
    obtain ⟨b, hb, huser⟩ := Option.map_eq_some'.mp hmap
    have hgg : g' = g := List.inj_on_of_nodup_map hnd hg' hg huser
    rw [← hgg, hb]
    rfl
  · intro hsome
    obtain ⟨b, hb⟩ := Option.isSome_iff_exists.mp hsome
    exact List.mem_filterMap.mpr ⟨g, hg, by simp [hb]⟩

/-- C1 (amended): after `prepare_train`, every user of the transactions
table is appended to at least one wrapper, but not always exactly one: a
user goes to the train wrapper iff it has at least `max_history_length`
transactions and is not a designated test user, and it goes to the test
wrapper iff it is in the test path or is a train user with strictly more
than `max_history_length` transactions while `top_k > 0` — in the latter
case it is appended to BOTH wrappers (the cut-off of lines 190-192). -/
theorem claim_C1_partition (cfg : Config) (tu : Option (List Int))
    (groups : List UserGroup) (hnd : (groups.map UserGroup.user).Nodup)
    (tr te : DataWrapper) (h : prepare_train cfg tu groups = some (tr, te))
    (g : UserGroup) (hg : g ∈ groups) :
    (g.user ∈ tr.user_indices ∨ g.user ∈ te.user_indices) ∧
    (g.user ∈ tr.user_indices ↔
      (cfg.max_history_length ≤ g.trans_indices.length ∧
        isTestUser tu g.user = false)) ∧
    (g.user ∈ te.user_indices ↔
      (g.trans_indices.length < cfg.max_history_length ∨
        isTestUser tu g.user = true ∨
        (0 < cfg.top_k ∧ cfg.max_history_length < g.trans_indices.length))) ∧
    ((g.user ∈ tr.user_indices ∧ g.user ∈ te.user_indices) ↔
      (isTestUser tu g.user = false ∧ 0 < cfg.top_k ∧
        cfg.max_history_length < g.trans_indices.length)) := by
  obtain ⟨tr', te', hpt, e1, e2, e3, e4, e5, e6⟩ := prepare_train_spec cfg tu groups
  rw [hpt] at h
  injection Option.some.inj h with htr hte
  rw [← htr, ← hte]
  have htrm : (g.user ∈ tr'.user_indices) ↔
      ((splitOf cfg tu g).trainEntry.isSome = true) := by
    rw [e1]
    exact user_mem_filterMap_iff groups hnd g hg _
  have htem : (g.user ∈ te'.user_indices) ↔
      ((splitOf cfg tu g).testEntry.isSome = true) := by
    rw [e4]
    exact user_mem_filterMap_iff groups hnd g hg _
  have htr_iff : (g.user ∈ tr'.user_indices) ↔
      (cfg.max_history_length ≤ g.trans_indices.length ∧
        isTestUser tu g.user = false) :=
    htrm.trans (trainEntry_isSome_iff cfg (isTestUser tu g.user)
      g.trans_indices g.item_indices)
  have hte_iff : (g.user ∈ te'.user_indices) ↔
      (g.trans_indices.length < cfg.max_history_length ∨
        isTestUser tu g.user = true ∨
        (0 < cfg.top_k ∧ cfg.max_history_length < g.trans_indices.length)) :=
    htem.trans (testEntry_isSome_iff cfg (isTestUser tu g.user)
      g.trans_indices g.item_indices)
  refine ⟨?_, htr_iff, hte_iff, ?_⟩
  · by_cases hcase : cfg.max_history_length ≤ g.trans_indices.length ∧
        isTestUser tu g.user = false
    · exact Or.inl (htr_iff.mpr hcase)
    · refine Or.inr (hte_iff.mpr ?_)
      rcases Decidable.em (isTestUser tu g.user = true) with hb | hb
      · exact Or.inr (Or.inl hb)
      · have hb' : isTestUser tu g.user = false := by
          cases hv : isTestUser tu g.user
          · rfl
          · exact absurd hv hb
        have hlt : g.trans_indices.length < cfg.max_history_length := by
          by_contra hcon
          exact hcase ⟨Nat.le_of_not_lt hcon, hb'⟩
        exact Or.inl hlt
  · rw [htr_iff, hte_iff]
    constructor
    · rintro ⟨⟨hle, hb⟩, hmem⟩
      rcases hmem with hlt | hbt | hk
      · omega
      · rw [hb] at hbt
        exact Bool.noConfusion hbt
      · exact ⟨hb, hk⟩
    · rintro ⟨hb, hk, hlt⟩
      exact ⟨⟨Nat.le_of_lt hlt, hb⟩, Or.inr (Or.inr ⟨hk, hlt⟩)⟩

/-- C1 witness: at a concrete input (one user with 2 transactions,
`max_history_length = 1`, `top_k = 1`) the amended characterization holds. -/
theorem claim_C1_partition_witness :
    ((0 : Int) ∈ (DataWrapper.mk [0] [[0]] [] [(0, 0)]).user_indices ∨
      (0 : Int) ∈ (DataWrapper.mk [0] [[0]] [[11]] [(0, 0)]).user_indices) ∧
    ((0 : Int) ∈ (DataWrapper.mk [0] [[0]] [] [(0, 0)]).user_indices ↔
      ((Config.mk 1 1 8).max_history_length ≤
          (UserGroup.mk 0 [0, 1] [10, 11]).trans_indices.length ∧
        isTestUser none (UserGroup.mk 0 [0, 1] [10, 11]).user = false)) ∧
    ((0 : Int) ∈ (DataWrapper.mk [0] [[0]] [[11]] [(0, 0)]).user_indices ↔
      ((UserGroup.mk 0 [0, 1] [10, 11]).trans_indices.length <
          (Config.mk 1 1 8).max_history_length ∨
        isTestUser none (UserGroup.mk 0 [0, 1] [10, 11]).user = true ∨
        (0 < (Config.mk 1 1 8).top_k ∧
          (Config.mk 1 1 8).max_history_length <
            (UserGroup.mk 0 [0, 1] [10, 11]).trans_indices.length))) ∧
    (((0 : Int) ∈ (DataWrapper.mk [0] [[0]] [] [(0, 0)]).user_indices ∧
      (0 : Int) ∈ (DataWrapper.mk [0] [[0]] [[11]] [(0, 0)]).user_indices) ↔
      (isTestUser none (UserGroup.mk 0 [0, 1] [10, 11]).user = false ∧
        0 < (Config.mk 1 1 8).top_k ∧
        (Config.mk 1 1 8).max_history_length <
          (UserGroup.mk 0 [0, 1] [10, 11]).trans_indices.length)) :=
  claim_C1_partition ⟨1, 1, 8⟩ none [⟨0, [0, 1], [10, 11]⟩] (by decide)
    ⟨[0], [[0]], [], [(0, 0)]⟩ ⟨[0], [[0]], [[11]], [(0, 0)]⟩ (by decide)
    ⟨0, [0, 1], [10, 11]⟩ (by decide)

/-- C1 counterexample to the claim as stated: with `max_history_length = 1`
and `top_k = 1`, the single user (two transactions) is appended to BOTH the
train wrapper and the test wrapper, not to exactly one. -/
theorem claim_C1_counterexample :
    prepare_train ⟨1, 1, 8⟩ none [⟨0, [0, 1], [10, 11]⟩] =
      some (⟨[0], [[0]], [], [(0, 0)]⟩, ⟨[0], [[0]], [[11]], [(0, 0)]⟩) ∧
    (0 : Int) ∈ (DataWrapper.mk [0] [[0]] [] [(0, 0)]).user_indices ∧
    (0 : Int) ∈ (DataWrapper.mk [0] [[0]] [[11]] [(0, 0)]).user_indices := by
  refine ⟨by decide, by decide, by decide⟩

/-- C2 (amended): users with fewer than `max_history_length` transactions
are test-only (never in the train wrapper, always in the test wrapper).
For the other (non-designated) users the windowing cuts at
`cut_offset = max(n - top_k, max_history_length)`: the train history is the
first `cut_offset` transactions and the held-out window is the LAST
`min(top_k, n - max_history_length)` items — the full last `top_k` only
when `n ≥ max_history_length + top_k`; when `n = max_history_length` (or
`top_k = 0`) nothing is held out. -/
theorem claim_C2_holdout_window (cfg : Config) (tu : Option (List Int))
    (groups : List UserGroup) (hnd : (groups.map UserGroup.user).Nodup)
    (tr te : DataWrapper) (h : prepare_train cfg tu groups = some (tr, te))
    (g : UserGroup) (hg : g ∈ groups)
    (hlen : g.item_indices.length = g.trans_indices.length) :
    (g.trans_indices.length < cfg.max_history_length →
      (g.user ∉ tr.user_indices ∧ g.user ∈ te.user_indices)) ∧
    (cfg.max_history_length ≤ g.trans_indices.length →
      isTestUser tu g.user = false →
      ((splitOf cfg tu g).trainEntry =
        some (g.trans_indices.take (cutOffset cfg g.trans_indices.length)) ∧
      (splitOf cfg tu g).testEntry =
        (if cutOffset cfg g.trans_indices.length < g.trans_indices.length then
          some (g.trans_indices.take (cutOffset cfg g.trans_indices.length),
                g.item_indices.drop (cutOffset cfg g.trans_indices.length))
        else none) ∧
      (g.item_indices.drop (cutOffset cfg g.trans_indices.length)).length =
        min cfg.top_k (g.trans_indices.length - cfg.max_history_length) ∧
      (cutOffset cfg g.trans_indices.length < g.trans_indices.length →
        g.item_indices.drop (cutOffset cfg g.trans_indices.length) ∈
          te.ground_truth))) := by
  obtain ⟨tr', te', hpt, e1, e2, e3, e4, e5, e6⟩ := prepare_train_spec cfg tu groups
  rw [hpt] at h
  injection Option.some.inj h with htr hte
  rw [← htr, ← hte]
  have htrm : (g.user ∈ tr'.user_indices) ↔
      ((splitOf cfg tu g).trainEntry.isSome = true) := by
    rw [e1]
    exact user_mem_filterMap_iff groups hnd g hg _
  have htem : (g.user ∈ te'.user_indices) ↔
      ((splitOf cfg tu g).testEntry.isSome = true) := by
    rw [e4]
    exact user_mem_filterMap_iff groups hnd g hg _
  constructor
  · intro hlt
    constructor
    · intro hmem
      have := (htrm.trans (trainEntry_isSome_iff cfg (isTestUser tu g.user)
        g.trans_indices g.item_indices)).mp hmem
      omega
    · exact (htem.trans (testEntry_isSome_iff cfg (isTestUser tu g.user)
        g.trans_indices g.item_indices)).mpr (Or.inl hlt)
  · intro hle hb
    have hsplit : splitOf cfg tu g =
        { trainEntry := some (g.trans_indices.take (cutOffset cfg g.trans_indices.length)),
          testEntry :=
            if cutOffset cfg g.trans_indices.length < g.trans_indices.length then
              some (g.trans_indices.take (cutOffset cfg g.trans_indices.length),
                    g.item_indices.drop (cutOffset cfg g.trans_indices.length))
            else none } :=
      processUser_train_eq cfg (isTestUser tu g.user) g.trans_indices
        g.item_indices hle hb
    refine ⟨by rw [hsplit], by rw [hsplit], ?_, ?_⟩
    · rw [List.length_drop, hlen]
      unfold cutOffset
      omega
    · intro hcut
      rw [e6]
      refine List.mem_filterMap.mpr ⟨g, hg, ?_⟩
      rw [hsplit]
      simp [if_pos hcut]

/-- C2 witness: a concrete train user with 3 transactions,
`max_history_length = 2`, `top_k = 1` — one item held out. -/
theorem claim_C2_holdout_window_witness :
    (((UserGroup.mk 0 [0, 1, 2] [10, 11, 12]).trans_indices.length <
        (Config.mk 2 1 8).max_history_length →
      ((0 : Int) ∉ (DataWrapper.mk [0] [[0, 1]] [] [(0, 0)]).user_indices ∧
        (0 : Int) ∈ (DataWrapper.mk [0] [[0, 1]] [[12]] [(0, 0)]).user_indices)) ∧
    ((Config.mk 2 1 8).max_history_length ≤
        (UserGroup.mk 0 [0, 1, 2] [10, 11, 12]).trans_indices.length →
      isTestUser none (UserGroup.mk 0 [0, 1, 2] [10, 11, 12]).user = false →
      ((splitOf ⟨2, 1, 8⟩ none ⟨0, [0, 1, 2], [10, 11, 12]⟩).trainEntry =
        some ((UserGroup.mk 0 [0, 1, 2] [10, 11, 12]).trans_indices.take
          (cutOffset ⟨2, 1, 8⟩
            (UserGroup.mk 0 [0, 1, 2] [10, 11, 12]).trans_indices.length)) ∧
      (splitOf ⟨2, 1, 8⟩ none ⟨0, [0, 1, 2], [10, 11, 12]⟩).testEntry =
        (if cutOffset ⟨2, 1, 8⟩
              (UserGroup.mk 0 [0, 1, 2] [10, 11, 12]).trans_indices.length <
            (UserGroup.mk 0 [0, 1, 2] [10, 11, 12]).trans_indices.length then
          some ((UserGroup.mk 0 [0, 1, 2] [10, 11, 12]).trans_indices.take
            (cutOffset ⟨2, 1, 8⟩
              (UserGroup.mk 0 [0, 1, 2] [10, 11, 12]).trans_indices.length),
            (UserGroup.mk 0 [0, 1, 2] [10, 11, 12]).item_indices.drop
              (cutOffset ⟨2, 1, 8⟩
                (UserGroup.mk 0 [0, 1, 2] [10, 11, 12]).trans_indices.length))
        else none) ∧
      ((UserGroup.mk 0 [0, 1, 2] [10, 11, 12]).item_indices.drop
          (cutOffset ⟨2, 1, 8⟩
            (UserGroup.mk 0 [0, 1, 2] [10, 11, 12]).trans_indices.length)).length =
        min (Config.mk 2 1 8).top_k
          ((UserGroup.mk 0 [0, 1, 2] [10, 11, 12]).trans_indices.length -
            (Config.mk 2 1 8).max_history_length) ∧
      (cutOffset ⟨2, 1, 8⟩
            (UserGroup.mk 0 [0, 1, 2] [10, 11, 12]).trans_indices.length <
          (UserGroup.mk 0 [0, 1, 2] [10, 11, 12]).trans_indices.length →
        (UserGroup.mk 0 [0, 1, 2] [10, 11, 12]).item_indices.drop
            (cutOffset ⟨2, 1, 8⟩
              (UserGroup.mk 0 [0, 1, 2] [10, 11, 12]).trans_indices.length) ∈
          (DataWrapper.mk [0] [[0, 1]] [[12]] [(0, 0)]).ground_truth)))) :=
  claim_C2_holdout_window ⟨2, 1, 8⟩ none [⟨0, [0, 1, 2], [10, 11, 12]⟩]
    (by decide) ⟨[0], [[0, 1]], [], [(0, 0)]⟩ ⟨[0], [[0, 1]], [[12]], [(0, 0)]⟩
    (by decide) ⟨0, [0, 1, 2], [10, 11, 12]⟩ (by decide) (by decide)

/-- C2 counterexample to the claim as stated: with `max_history_length = 2`
and `top_k = 1`, a user with exactly 2 transactions is NOT test-only
(2 is not below the threshold) and yet its last `top_k = 1` transactions
are not held out either — the test wrapper stays completely empty, while
the claimed held-out window `[-1:]` would be `[11]`. -/
theorem claim_C2_counterexample :
    prepare_train ⟨2, 1, 8⟩ none [⟨0, [0, 1], [10, 11]⟩] =
      some (⟨[0], [[0, 1]], [], [(0, 0)]⟩, ⟨[], [], [], []⟩) ∧
    pySliceFromNeg ([10, 11] : List Int) 1 = [11] ∧
    (DataWrapper.mk [] [] [] []).ground_truth = [] := by
  refine ⟨by decide, by decide, rfl⟩

/-- Python `enumerate`, pairing list elements with consecutive codes
starting at `n` (value first, as in `[(val, i) for i, val in enumerate _]`). -/
def numberFrom {α : Type} : Nat → List α → List (α × Nat)
  | _, [] => []
  | n, a :: rest => (a, n) :: numberFrom (n + 1) rest

/-- `sorted(set(column))` (data.py lines 263-265): the distinct values of a
column in ascending order. -/
def sortedDistinct {α : Type} [LinearOrder α] (vals : List α) : List α :=
  List.insertionSort (· ≤ ·) vals.dedup

/-- `RecData._learn_feature_dict` for one column (data.py lines 259-279):
`OrderedDict([(val, i) for i, val in enumerate(sorted(set(column)))])`. -/
def learn_feature_dict {α : Type} [LinearOrder α] (vals : List α) :
    List (α × Nat) :=
  numberFrom 0 (sortedDistinct vals)

/-- The system fields skipped by `_learn_feature_dict` (data.py lines 57-60). -/
def sys_fields : List String :=
  ["id", "desc", "info", "image", "tfrecord", "profile", "context",
   "user", "item", "trans"]

/-- `_learn_feature_dict` over a whole data frame, given as a list of
(column name, column values) pairs: every non-system column gets its
per-column dictionary. -/
def learn_feature_dicts {α : Type} [LinearOrder α]
    (columns : List (String × List α)) : List (String × List (α × Nat)) :=
  (columns.filter (fun c => !(sys_fields.contains c.1))).map
    (fun c => (c.1, learn_feature_dict c.2))

/-- `feat_map.get(x, 0)` (data.py lines 111, 134, 143): the learned code of
`x`, defaulting to `0` when `x` is not a key. -/
def encode_value {α : Type} [DecidableEq α] (d : List (α × Nat)) (x : α) : Nat :=
  (d.lookup x).getD 0

/-- `column.map(lambda x: feat_map.get(x, 0))` — the single uniform encoder
used for item (line 111), user (line 134) and transaction (line 143)
features. -/
def encode_column {α : Type} [DecidableEq α] (d : List (α × Nat))
    (col : List α) : List Nat :=
  col.map (encode_value d)

/-- `lookup` in an enumeration of a duplicate-free list finds the position. -/
theorem lookup_numberFrom {α : Type} [DecidableEq α] (s : List α) (hnd : s.Nodup) :
    ∀ (n i : Nat) (h : i < s.length),
      (numberFrom n s).lookup (s.get ⟨i, h⟩) = some (n + i) := by
  induction s with
  | nil =>
      intro n i h
      exact absurd h (by simp)
  | cons a rest ih =>
      intro n i h
      cases i with
      | zero => simp [numberFrom, List.lookup_cons]
      | succ i =>
          have hh : i < rest.length := Nat.lt_of_succ_lt_succ (by simpa using h)
          have hget : (a :: rest).get ⟨i + 1, h⟩ = rest.get ⟨i, hh⟩ := rfl
          have hmem : rest.get ⟨i, hh⟩ ∈ rest := List.get_mem rest i hh
          have hanotin : a ∉ rest := (List.nodup_cons.mp hnd).1
          have hne : (rest.get ⟨i, hh⟩ == a) = false := by
            apply beq_false_of_ne
            intro hcontra
            exact hanotin (hcontra ▸ hmem)
          have hrest := ih (List.nodup_cons.mp hnd).2 (n + 1) i hh
          rw [hget]
          simp only [numberFrom, List.lookup_cons, hne]
          rw [hrest]
          congr 1
          omega

/-- `lookup` in an enumeration misses exactly the non-members. -/
theorem lookup_numberFrom_not_mem {α : Type} [DecidableEq α] (s : List α)
    (z : α) (hz : z ∉ s) : ∀ n : Nat, (numberFrom n s).lookup z = none := by
  induction s with
  | nil => intro n; rfl
  | cons a rest ih =>
      intro n
      have hza : (z == a) = false := by
        apply beq_false_of_ne
        intro hcontra
        exact hz (hcontra ▸ List.mem_cons_self a rest)
      have hzr : z ∉ rest := fun hc => hz (List.mem_cons_of_mem a hc)
      simp only [numberFrom, List.lookup_cons, hza]
      exact ih hzr (n + 1)

/-- Membership in the sorted distinct values is membership in the column. -/
theorem mem_sortedDistinct {α : Type} [LinearOrder α] (vals : List α) (a : α) :
    a ∈ sortedDistinct vals ↔ a ∈ vals := by
  unfold sortedDistinct
  rw [(List.perm_insertionSort (· ≤ ·) vals.dedup).mem_iff]
  exact List.mem_dedup

/-- The sorted distinct values are sorted and duplicate-free. -/
theorem sortedDistinct_sorted_nodup {α : Type} [LinearOrder α] (vals : List α) :
    (sortedDistinct vals).Sorted (· ≤ ·) ∧ (sortedDistinct vals).Nodup := by
  constructor
  · exact List.sorted_insertionSort (· ≤ ·) vals.dedup
  · exact (List.perm_insertionSort (· ≤ ·) vals.dedup).nodup_iff.mpr
      vals.nodup_dedup

/-- C3: every learned feature dictionary maps each distinct column value to
its 0-based position in the ascending order of the column's distinct
values, and it is a deterministic function of the column's set of values;
non-system columns of a frame are mapped exactly through this per-column
learner. -/
theorem claim_C3_feature_dict {α : Type} [LinearOrder α]
    (columns : List (String × List α)) (name : String) (colvals : List α)
    (hmem : (name, colvals) ∈ columns)
    (hnotsys : sys_fields.contains name = false) :
    (name, learn_feature_dict colvals) ∈ learn_feature_dicts columns ∧
    (sortedDistinct colvals).Sorted (· ≤ ·) ∧
    (sortedDistinct colvals).Nodup ∧
    (∀ v ∈ colvals, ∃ i : Fin (sortedDistinct colvals).length,
      (sortedDistinct colvals).get i = v ∧
      (learn_feature_dict colvals).lookup v = some i.val) ∧
    (∀ other : List α, colvals.toFinset = other.toFinset →
      learn_feature_dict colvals = learn_feature_dict other) := by
  obtain ⟨hsort, hnd⟩ := sortedDistinct_sorted_nodup colvals
  refine ⟨?_, hsort, hnd, ?_, ?_⟩
  · unfold learn_feature_dicts
    refine List.mem_map.mpr ⟨(name, colvals), List.mem_filter.mpr ⟨hmem, ?_⟩, rfl⟩
    simpa using hnotsys
  · intro v hv
    have hv' : v ∈ sortedDistinct colvals := (mem_sortedDistinct colvals v).mpr hv
    obtain ⟨i, hi⟩ := List.get_of_mem hv'
    refine ⟨i, hi, ?_⟩
    have := lookup_numberFrom (sortedDistinct colvals) hnd 0 i.val i.isLt
    rw [← hi]
    simpa [learn_feature_dict] using this
  · intro other hfin
    have hmemiff : ∀ a, a ∈ colvals.dedup ↔ a ∈ other.dedup := by
      intro a
      rw [List.mem_dedup, List.mem_dedup, ← List.mem_toFinset, hfin,
        List.mem_toFinset]
    have hperm : colvals.dedup.Perm other.dedup :=
      (List.perm_ext_iff_of_nodup colvals.nodup_dedup other.nodup_dedup).mpr
        hmemiff
    have hsd : sortedDistinct colvals = sortedDistinct other := by
      apply List.eq_of_perm_of_sorted
        (((List.perm_insertionSort (· ≤ ·) colvals.dedup).trans hperm).trans
          (List.perm_insertionSort (· ≤ ·) other.dedup).symm)
        (sortedDistinct_sorted_nodup colvals).1
        (sortedDistinct_sorted_nodup other).1
    unfold learn_feature_dict
    rw [hsd]

/-- C3 witness: a concrete integer column. -/
theorem claim_C3_feature_dict_witness :
    (("color", learn_feature_dict ([5, 3, 5, 7] : List Int)) ∈
        learn_feature_dicts [("id", [1, 2]), ("color", [5, 3, 5, 7])]) ∧
    (sortedDistinct ([5, 3, 5, 7] : List Int)).Sorted (· ≤ ·) ∧
    (sortedDistinct ([5, 3, 5, 7] : List Int)).Nodup ∧
    (∀ v ∈ ([5, 3, 5, 7] : List Int),
      ∃ i : Fin (sortedDistinct ([5, 3, 5, 7] : List Int)).length,
        (sortedDistinct ([5, 3, 5, 7] : List Int)).get i = v ∧
        (learn_feature_dict ([5, 3, 5, 7] : List Int)).lookup v = some i.val) ∧
    (∀ other : List Int, ([5, 3, 5, 7] : List Int).toFinset = other.toFinset →
      learn_feature_dict ([5, 3, 5, 7] : List Int) = learn_feature_dict other) :=
  claim_C3_feature_dict [("id", [1, 2]), ("color", [5, 3, 5, 7])] "color"
    [5, 3, 5, 7] (by decide) (by decide)

/-- C10: during `prepare_features` every feature value that is not a key of
its learned dictionary is encoded as `0` — the very code the dictionary
assigns to the smallest learned value of the column — so unseen categorical
values silently collide with the first vocabulary entry instead of raising;
this holds uniformly because item, user and transaction features all pass
through the same `feat_map.get(x, 0)` encoder (`encode_value`). -/
theorem claim_C10_unseen_default {α : Type} [LinearOrder α] (vals col : List α) :
    (∀ z, z ∉ vals → encode_value (learn_feature_dict vals) z = 0) ∧
    (∀ m, m ∈ vals → (∀ y ∈ vals, m ≤ y) →
      encode_value (learn_feature_dict vals) m = 0) ∧
    (∀ z ∈ col, z ∉ vals →
      (0 : Nat) ∈ encode_column (learn_feature_dict vals) col) := by
  obtain ⟨hsort, hnd⟩ := sortedDistinct_sorted_nodup vals
  have hunseen : ∀ z, z ∉ vals → encode_value (learn_feature_dict vals) z = 0 := by
    intro z hz
    have hz' : z ∉ sortedDistinct vals := fun hc =>
      hz ((mem_sortedDistinct vals z).mp hc)
    unfold encode_value learn_feature_dict
    rw [lookup_numberFrom_not_mem (sortedDistinct vals) z hz' 0]
    rfl
  refine ⟨hunseen, ?_, ?_⟩
  · intro m hm hmin
    obtain ⟨i, hi⟩ := List.get_of_mem ((mem_sortedDistinct vals m).mpr hm)
    have h0 : 0 < (sortedDistinct vals).length :=
      Nat.lt_of_le_of_lt (Nat.zero_le _) i.isLt
    have hle1 : (sortedDistinct vals).get ⟨0, h0⟩ ≤ m := by
      rcases Nat.eq_zero_or_pos i.val with hz | hpos
      · rw [← hi]
        apply le_of_eq
        congr 1
        exact Fin.ext hz.symm
      · have hlt : (⟨0, h0⟩ : Fin (sortedDistinct vals).length) < i := hpos
        have := List.pairwise_iff_get.mp hsort ⟨0, h0⟩ i hlt
        rw [hi] at this
        exact this
    have hle2 : m ≤ (sortedDistinct vals).get ⟨0, h0⟩ :=
      hmin _ ((mem_sortedDistinct vals _).mp (List.get_mem _ 0 h0))
    have heq : (sortedDistinct vals).get ⟨0, h0⟩ = m := le_antisymm hle1 hle2
    unfold encode_value learn_feature_dict
    rw [← heq, lookup_numberFrom (sortedDistinct vals) hnd 0 0 h0]
    rfl
  · intro z hz hzv
    unfold encode_column
    exact List.mem_map.mpr ⟨z, hz, hunseen z hzv⟩

/-- C10 witness: with learned values `{3, 1, 2}`, the unseen value `9`
encodes to `0`, the minimum `1` also encodes to `0`, and the encoded column
contains the colliding code. -/
theorem claim_C10_unseen_default_witness :
    encode_value (learn_feature_dict ([3, 1, 2] : List Int)) 9 = 0 ∧
    encode_value (learn_feature_dict ([3, 1, 2] : List Int)) 1 = 0 ∧
    (0 : Nat) ∈ encode_column (learn_feature_dict ([3, 1, 2] : List Int)) [9, 1] :=
  ⟨(claim_C10_unseen_default [3, 1, 2] [9, 1]).1 9 (by decide),
   (claim_C10_unseen_default [3, 1, 2] [9, 1]).2.1 1 (by decide) (by decide),
   (claim_C10_unseen_default [3, 1, 2] [9, 1]).2.2 9 (by decide) (by decide)⟩

/-- An entry of `pyDictInsert d k v` is an old entry or the new pair. -/
theorem mem_pyDictInsert {κ ν : Type} [DecidableEq κ] (d : List (κ × ν))
    (k : κ) (v : ν) (q : κ × ν) (hq : q ∈ pyDictInsert d k v) :
    q ∈ d ∨ q = (k, v) := by
  unfold pyDictInsert at hq
  by_cases hin : (d.lookup k).isSome = true
  · rw [if_pos hin] at hq
    obtain ⟨p, hp, he⟩ := List.mem_map.mp hq
    by_cases hpk : p.1 = k
    · right
      rw [← he, if_pos hpk]
    · left
      rw [← he, if_neg hpk]
      exact hp
  · rw [if_neg hin] at hq
    rcases List.mem_append.mp hq with h | h
    · exact Or.inl h
    · right
      simpa using h

/-- Updating one key leaves lookups at other keys unchanged (map branch). -/
theorem lookup_map_overwrite_ne {κ ν : Type} [DecidableEq κ]
    (d : List (κ × ν)) (k x : κ) (v : ν) (hx : x ≠ k) :
    (d.map (fun p => if p.1 = k then (k, v) else p)).lookup x = d.lookup x := by
  induction d with
  | nil => rfl
  | cons p rest ih =>
      obtain ⟨pk, pv⟩ := p
      by_cases hpk : pk = k
      · subst hpk
        have hbeq : (x == pk) = false := beq_false_of_ne hx
        simp [List.lookup_cons, hbeq, ih]
      · simp [List.lookup_cons, hpk, ih]

/-- Appending one fresh pair leaves lookups at other keys unchanged. -/
theorem lookup_append_single_ne {κ ν : Type} [DecidableEq κ]
    (d : List (κ × ν)) (k x : κ) (v : ν) (hx : x ≠ k) :
    (d ++ [(k, v)]).lookup x = d.lookup x := by
  induction d with
  | nil =>
      have hbeq : (x == k) = false := beq_false_of_ne hx
      simp [List.lookup_cons, hbeq, List.lookup]
  | cons p rest ih =>
      obtain ⟨pk, pv⟩ := p
      by_cases hpk : x = pk
      · subst hpk
        simp [List.lookup_cons]
      · have hbeq : (x == pk) = false := beq_false_of_ne hpk
        simp [List.lookup_cons, hbeq, ih]

/-- `d[k] = v` leaves lookups at other keys unchanged. -/
theorem lookup_pyDictInsert_ne {κ ν : Type} [DecidableEq κ]
    (d : List (κ × ν)) (k x : κ) (v : ν) (hx : x ≠ k) :
    (pyDictInsert d k v).lookup x = d.lookup x := by
  unfold pyDictInsert
  by_cases hin : (d.lookup k).isSome = true
  · rw [if_pos hin]
    exact lookup_map_overwrite_ne d k x v hx
  · rw [if_neg hin]
    exact lookup_append_single_ne d k x v hx

/-- A successful `lookup` certifies membership of the pair. -/
theorem mem_of_lookup_eq_some {κ ν : Type} [DecidableEq κ]
    (d : List (κ × ν)) (x : κ) (i : ν) (h : d.lookup x = some i) :
    (x, i) ∈ d := by
  induction d with
  | nil => exact absurd h (by simp [List.lookup])
  | cons p rest ih =>
      obtain ⟨pk, pv⟩ := p
      by_cases hbeq : (x == pk) = true
      · have hx : x = pk := eq_of_beq hbeq
        have hv : pv = i := by
          simpa [List.lookup_cons, hbeq] using h
        rw [hx, hv]
        exact List.mem_cons_self _ _
      · have hbeq' : (x == pk) = false := by simpa using hbeq
        have h' : rest.lookup x = some i := by
          simpa [List.lookup_cons, hbeq'] using h
        exact List.mem_cons_of_mem _ (ih h')

/-- Folding dict assignments over enumerated pairs: every key seen is
present afterwards (and keys already present stay present). -/
theorem lookup_isSome_foldl_pyDictInsert {κ ν : Type} [DecidableEq κ] :
    ∀ (ps : List (κ × ν)) (d : List (κ × ν)) (x : κ),
      ((d.lookup x).isSome = true ∨ x ∈ ps.map Prod.fst) →
      (((ps.foldl (fun acc p => pyDictInsert acc p.1 p.2) d).lookup x).isSome
        = true) := by
  intro ps
  induction ps with
  | nil =>
      intro d x h
      rcases h with h | h
      · simpa using h
      · exact absurd h (by simp)
  | cons p rest ih =>
      intro d x h
      simp only [List.foldl_cons]
      apply ih
      by_cases hxp : x = p.1
      · left
        rw [hxp, lookup_pyDictInsert]
        rfl
      · rcases h with h | h
        · left
          rw [lookup_pyDictInsert_ne d p.1 x p.2 hxp]
          exact h
        · right
          rw [List.map_cons] at h
          rcases List.mem_cons.mp h with h2 | h2
          · exact absurd h2 hxp
          · exact h2

/-- Entries produced by folding dict assignments come from the accumulator
or from the assigned pairs. -/
theorem mem_foldl_pyDictInsert {κ ν : Type} [DecidableEq κ] :
    ∀ (ps : List (κ × ν)) (d : List (κ × ν)) (q : κ × ν),
      q ∈ ps.foldl (fun acc p => pyDictInsert acc p.1 p.2) d →
      q ∈ d ∨ q ∈ ps := by
  intro ps
  induction ps with
  | nil =>
      intro d q h
      exact Or.inl h
  | cons p rest ih =>
      intro d q h
      simp only [List.foldl_cons] at h
      rcases ih _ q h with h2 | h2
      · rcases mem_pyDictInsert _ _ _ q h2 with h3 | h3
        · exact Or.inl h3
        · right
          rw [h3]
          exact List.mem_cons_self _ _
      · exact Or.inr (List.mem_cons_of_mem p h2)

/-- The keys of an enumeration are the list itself. -/
theorem numberFrom_map_fst {α : Type} :
    ∀ (n : Nat) (s : List α), (numberFrom n s).map Prod.fst = s := by
  intro n s
  induction s generalizing n with
  | nil => rfl
  | cons a rest ih => simp [numberFrom, ih]

/-- Codes in an enumeration starting at `n` are below `n + length`. -/
theorem numberFrom_snd_lt {α : Type} :
    ∀ (n : Nat) (s : List α) (q : α × Nat), q ∈ numberFrom n s →
      q.2 < n + s.length := by
  intro n s
  induction s generalizing n with
  | nil =>
      intro q h
      exact absurd h (by simp [numberFrom])
  | cons a rest ih =>
      intro q h
      rcases List.mem_cons.mp (by simpa [numberFrom] using h) with h2 | h2
      · rw [h2]
        simp
      · have := ih (n + 1) q h2
        simp only [List.length_cons]
        omega

/-- `OrderedDict([(id, i) for i, id in enumerate(ids)])` (data.py lines
96-97): successive dict assignment of enumerated ids, so a duplicated id
keeps its first position but maps to its last row index. -/
def index_map (ids : List Int) : List (Int × Nat) :=
  (numberFrom 0 ids).foldl (fun d p => pyDictInsert d p.1 p.2) []

/-- pandas `column.map(dict)` (data.py lines 98-99): values that are not
keys of the dict become NaN, modelled as `none`. -/
def map_column (col : List Int) (d : List (Int × Nat)) : List (Option Nat) :=
  col.map (fun x => d.lookup x)

/-- `RecData.__init__` (data.py lines 62-105): the asserts on lines 70-71
check the required columns, then `trans['item']` and `trans['user']` are
remapped through the id-to-row maps; `none` is a raised `AssertionError`. -/
def recdata_init (itemCols userCols transCols : List String)
    (itemIds userIds transItems transUsers : List Int) :
    Option (List (Option Nat) × List (Option Nat)) :=
  if ("id" ∈ itemCols ∧ "id" ∈ userCols) ∧
      ("item" ∈ transCols ∧ "user" ∈ transCols) then
    some (map_column transItems (index_map itemIds),
          map_column transUsers (index_map userIds))
  else none

/-- A looked-up id resolves to a defined row index below the table length. -/
theorem lookup_index_map_of_mem (ids : List Int) (x : Int) (hx : x ∈ ids) :
    ∃ i, (index_map ids).lookup x = some i ∧ i < ids.length := by
  have hsome : ((index_map ids).lookup x).isSome = true := by
    unfold index_map
    apply lookup_isSome_foldl_pyDictInsert
    right
    rw [numberFrom_map_fst]
    exact hx
  obtain ⟨i, hi⟩ := Option.isSome_iff_exists.mp hsome
  refine ⟨i, hi, ?_⟩
  have hmem : (x, i) ∈ index_map ids := mem_of_lookup_eq_some _ x i hi
  rcases mem_foldl_pyDictInsert (numberFrom 0 ids) [] (x, i) hmem with h | h
  · exact absurd h (by simp)
  · simpa using numberFrom_snd_lt 0 ids (x, i) h

/-- C9: the constructor's error handling is the defensive asserts on
required columns (data.py lines 70-71): construction raises (returns
`none`) exactly when `id` is missing from items or from users, or `item`
or `user` is missing from trans; there is no other failure path, retry or
recovery in the constructor. -/
theorem claim_C9_required_columns (itemCols userCols transCols : List String)
    (itemIds userIds transItems transUsers : List Int) :
    recdata_init itemCols userCols transCols itemIds userIds transItems
        transUsers = none ↔
      ¬(("id" ∈ itemCols ∧ "id" ∈ userCols) ∧
        ("item" ∈ transCols ∧ "user" ∈ transCols)) := by
  unfold recdata_init
  split_ifs with hc
  · simp [hc]
  · simp [hc]

/-- C6 (amended): after construction the remapped foreign keys all resolve
to defined dense row indices below the respective table length PROVIDED
every `trans['item']` value occurs in `items['id']` and every
`trans['user']` value occurs in `users['id']`; a foreign key absent from
the id column is instead mapped to NaN (`none`) by pandas `.map`. -/
theorem claim_C6_foreign_keys (itemCols userCols transCols : List String)
    (itemIds userIds transItems transUsers : List Int)
    (ti tu : List (Option Nat))
    (h : recdata_init itemCols userCols transCols itemIds userIds transItems
      transUsers = some (ti, tu))
    (hitems : ∀ x ∈ transItems, x ∈ itemIds)
    (husers : ∀ x ∈ transUsers, x ∈ userIds) :
    (∀ y ∈ ti, ∃ i, y = some i ∧ i < itemIds.length) ∧
    (∀ y ∈ tu, ∃ i, y = some i ∧ i < userIds.length) := by
  unfold recdata_init at h
  split_ifs at h with hc
  · injection Option.some.inj h with h1 h2
    rw [← h1, ← h2]
    constructor
    · intro y hy
      obtain ⟨x, hx, hxy⟩ := List.mem_map.mp hy
      obtain ⟨i, hlk, hlt⟩ := lookup_index_map_of_mem itemIds x (hitems x hx)
      exact ⟨i, by rw [← hxy, hlk], hlt⟩
    · intro y hy
      obtain ⟨x, hx, hxy⟩ := List.mem_map.mp hy
      obtain ⟨i, hlk, hlt⟩ := lookup_index_map_of_mem userIds x (husers x hx)
      exact ⟨i, by rw [← hxy, hlk], hlt⟩

/-- C6 witness: two items, one user, all foreign keys present. -/
theorem claim_C6_foreign_keys_witness :
    (∀ y ∈ ([some 1, some 0] : List (Option Nat)),
      ∃ i, y = some i ∧ i < ([7, 8] : List Int).length) ∧
    (∀ y ∈ ([some 0, some 0] : List (Option Nat)),
      ∃ i, y = some i ∧ i < ([9] : List Int).length) :=
  claim_C6_foreign_keys ["id"] ["id"] ["item", "user"] [7, 8] [9] [8, 7]
    [9, 9] [some 1, some 0] [some 0, some 0] (by decide) (by decide)
    (by decide)

/-- C6 counterexample to the claim as stated: a transaction referencing
item id `5` while items only contains id `7` is remapped to NaN (`none`),
which is not a valid row index for any row. -/
theorem claim_C6_counterexample :
    recdata_init ["id"] ["id"] ["item", "user"] [7] [7] [5] [7] =
      some ([none], [some 0]) ∧
    ∀ i : Nat, (none : Option Nat) ≠ some i :=
  ⟨by decide, fun _ h => Option.noConfusion h⟩

/-- A Python dict key as it occurs in a feature dictionary: column values
are strings or integers. -/
inductive PyKey where
  | str (s : String)
  | int (n : Int)
  deriving Repr, DecidableEq

/-- How `json.dump` renders a dict key: a string key verbatim, a non-string
key through its string representation. -/
def keyToString : PyKey → String
  | .str s => s
  | .int n => toString n

/-- `json.dump` of one per-field vocabulary: every key becomes a JSON
string. -/
def dumpInner (d : List (PyKey × Nat)) : List (String × Nat) :=
  d.map (fun p => (keyToString p.1, p.2))

/-- `json.load` of one JSON object into a Python dict (data.py lines
330-334 then wrap in `OrderedDict`): all keys are strings; entries are
inserted in file order with dict-assignment semantics. -/
def parseInner (j : List (String × Nat)) : List (PyKey × Nat) :=
  j.foldl (fun acc p => pyDictInsert acc (PyKey.str p.1) p.2) []

/-- `json.dump` of a whole feature dict; field (column) names are already
strings. -/
def dumpDicts (d : List (String × List (PyKey × Nat))) :
    List (String × List (String × Nat)) :=
  d.map (fun p => (p.1, dumpInner p.2))

/-- `json.load` of a whole feature dict. -/
def parseDicts (j : List (String × List (String × Nat))) :
    List (String × List (PyKey × Nat)) :=
  j.foldl (fun acc p => pyDictInsert acc p.1 (parseInner p.2)) []

/-- `RecData.save_feature_dict` (data.py lines 318-325): writes exactly the
three JSON files into the directory. -/
def save_feature_dict (item user trans : List (String × List (PyKey × Nat))) :
    List (String × List (String × List (String × Nat))) :=
  [("item_feature_dict.json", dumpDicts item),
   ("user_feature_dict.json", dumpDicts user),
   ("trans_feature_dict.json", dumpDicts trans)]

/-- `RecData.load_feature_dict` (data.py lines 327-335): reads the three
files back; a missing file is a raised `IOError` (`none`). -/
def load_feature_dict
    (files : List (String × List (String × List (String × Nat)))) :
    Option (List (String × List (PyKey × Nat)) ×
            List (String × List (PyKey × Nat)) ×
            List (String × List (PyKey × Nat))) := do
  let i ← files.lookup "item_feature_dict.json"
  let u ← files.lookup "user_feature_dict.json"
  let t ← files.lookup "trans_feature_dict.json"
  pure (parseDicts i, parseDicts u, parseDicts t)

/-- Folding dict assignments with pairwise-fresh keys just appends. -/
theorem foldl_pyDictInsert_fresh {κ ν : Type} [DecidableEq κ] :
    ∀ (ps : List (κ × ν)) (d : List (κ × ν)),
      (ps.map Prod.fst).Nodup →
      (∀ k ∈ ps.map Prod.fst, d.lookup k = none) →
      ps.foldl (fun acc p => pyDictInsert acc p.1 p.2) d = d ++ ps := by
  intro ps
  induction ps with
  | nil =>
      intro d _ _
      simp
  | cons p rest ih =>
      intro d hnd hfresh
      have hp : d.lookup p.1 = none :=
        hfresh p.1 (by simp)
      have hinsert : pyDictInsert d p.1 p.2 = d ++ [p] := by
        unfold pyDictInsert
        rw [hp]
        rfl
      have hndr : (rest.map Prod.fst).Nodup := (List.nodup_cons.mp
        (by simpa using hnd)).2
      have hnotin : p.1 ∉ rest.map Prod.fst := (List.nodup_cons.mp
        (by simpa using hnd)).1
      have hfresh' : ∀ k ∈ rest.map Prod.fst, (d ++ [p]).lookup k = none := by
        intro k hk
        have hkp : k ≠ p.1 := fun he => hnotin (he ▸ hk)
        have : (d ++ [(p.1, p.2)]).lookup k = d.lookup k :=
          lookup_append_single_ne d p.1 k p.2 hkp
        rw [show d ++ [p] = d ++ [(p.1, p.2)] from rfl, this]
        exact hfresh k (List.mem_cons_of_mem _ hk)
      calc (p :: rest).foldl (fun acc q => pyDictInsert acc q.1 q.2) d
          = rest.foldl (fun acc q => pyDictInsert acc q.1 q.2) (d ++ [p]) := by
            simp only [List.foldl_cons, hinsert]
        _ = (d ++ [p]) ++ rest := ih (d ++ [p]) hndr hfresh'
        _ = d ++ (p :: rest) := by simp

/-- Parsing a dumped inner dictionary re-stringifies every key (provided
the stringified keys are pairwise distinct, as they are for any Python
dict whose keys do not collide under `str`). -/
theorem parseInner_dumpInner (d : List (PyKey × Nat))
    (hnd : ((dumpInner d).map Prod.fst).Nodup) :
    parseInner (dumpInner d) =
      d.map (fun p => (PyKey.str (keyToString p.1), p.2)) := by
  have h1 : parseInner (dumpInner d) =
      ((dumpInner d).map (fun p => (PyKey.str p.1, p.2))).foldl
        (fun acc p => pyDictInsert acc p.1 p.2) [] := by
    unfold parseInner
    rw [List.foldl_map]
  have hinj : Function.Injective (fun s => PyKey.str s) := by
    intro a b hab
    simpa using hab
  have hnd' : (((dumpInner d).map (fun p => (PyKey.str p.1, p.2))).map
      Prod.fst).Nodup := by
    have : ((dumpInner d).map (fun p => (PyKey.str p.1, p.2))).map Prod.fst =
        ((dumpInner d).map Prod.fst).map (fun s => PyKey.str s) := by
      simp [List.map_map]
    rw [this]
    exact hnd.map hinj
  have hfresh : ∀ k ∈ ((dumpInner d).map (fun p => (PyKey.str p.1, p.2))).map
      Prod.fst, ([] : List (PyKey × Nat)).lookup k = none := by
    intro k _
    rfl
  rw [h1, foldl_pyDictInsert_fresh _ [] hnd' hfresh]
  unfold dumpInner
  simp [List.map_map]

/-- When all keys are strings, parse-after-dump is the identity on an inner
dictionary. -/
theorem parseInner_dumpInner_id (d : List (PyKey × Nat))
    (hstr : ∀ p ∈ d, ∃ s, p.1 = PyKey.str s)
    (hnd : (d.map Prod.fst).Nodup) :
    parseInner (dumpInner d) = d := by
  have hstrkeys : ∀ x ∈ d.map Prod.fst, ∃ s, x = PyKey.str s := by
    intro x hx
    obtain ⟨p, hp, he⟩ := List.mem_map.mp hx
    obtain ⟨s, hs⟩ := hstr p hp
    exact ⟨s, he ▸ hs⟩
  have hndstr : ((dumpInner d).map Prod.fst).Nodup := by
    have heq : (dumpInner d).map Prod.fst =
        (d.map Prod.fst).map keyToString := by
      unfold dumpInner
      simp [List.map_map]
    rw [heq]
    refine List.Nodup.map_on ?_ hnd
    intro x hx y hy hxy
    obtain ⟨s, hs⟩ := hstrkeys x hx
    obtain ⟨t, ht⟩ := hstrkeys y hy
    rw [hs, ht] at hxy ⊢
    rw [show keyToString (PyKey.str s) = s from rfl,
      show keyToString (PyKey.str t) = t from rfl] at hxy
    rw [hxy]
  rw [parseInner_dumpInner d hndstr]
  have hid : ∀ p ∈ d, (PyKey.str (keyToString p.1), p.2) = p := by
    intro p hp
    obtain ⟨s, hs⟩ := hstr p hp
    obtain ⟨k, v⟩ := p
    simp only at hs
    rw [hs]
    rfl
  calc d.map (fun p => (PyKey.str (keyToString p.1), p.2))
      = d.map id := List.map_congr_left hid
    _ = d := List.map_id d

/-- When all inner keys are strings, parse-after-dump is the identity on a
whole feature dict. -/
theorem parseDicts_dumpDicts_id (d : List (String × List (PyKey × Nat)))
    (houter : (d.map Prod.fst).Nodup)
    (hinner : ∀ c ∈ d, (∀ p ∈ c.2, ∃ s, p.1 = PyKey.str s) ∧
      (c.2.map Prod.fst).Nodup) :
    parseDicts (dumpDicts d) = d := by
  have h1 : parseDicts (dumpDicts d) =
      ((dumpDicts d).map (fun p => (p.1, parseInner p.2))).foldl
        (fun acc p => pyDictInsert acc p.1 p.2) [] := by
    unfold parseDicts
    rw [List.foldl_map]
  have hkeys : ((dumpDicts d).map (fun p => (p.1, parseInner p.2))).map
      Prod.fst = d.map Prod.fst := by
    unfold dumpDicts
    simp [List.map_map]
  have hnd' : (((dumpDicts d).map (fun p => (p.1, parseInner p.2))).map
      Prod.fst).Nodup := by
    rw [hkeys]
    exact houter
  have hfresh : ∀ k ∈ ((dumpDicts d).map (fun p => (p.1, parseInner p.2))).map
      Prod.fst, ([] : List (String × List (PyKey × Nat))).lookup k = none := by
    intro k _
    rfl
  rw [h1, foldl_pyDictInsert_fresh _ [] hnd' hfresh]
  have hmm : (dumpDicts d).map (fun p => (p.1, parseInner p.2)) =
      d.map (fun c => (c.1, parseInner (dumpInner c.2))) := by
    unfold dumpDicts
    simp [List.map_map]
  rw [List.nil_append, hmm]
  have hid : ∀ c ∈ d, (c.1, parseInner (dumpInner c.2)) = c := by
    intro c hc
    obtain ⟨hs, hn⟩ := hinner c hc
    rw [parseInner_dumpInner_id c.2 hs hn]
  calc d.map (fun c => (c.1, parseInner (dumpInner c.2)))
      = d.map id := List.map_congr_left hid
    _ = d := List.map_id d

/-- C7 (amended): `save_feature_dict` writes exactly three JSON files with
the documented names, and `load_feature_dict` on them restores the three
feature dictionaries PROVIDED every feature value (inner dict key) is a
string; JSON serialization turns any non-string key into its string
representation, so for non-string keys the round trip is not the
identity. -/
theorem claim_C7_save_load_roundtrip
    (item user trans : List (String × List (PyKey × Nat)))
    (hoi : (item.map Prod.fst).Nodup)
    (hou : (user.map Prod.fst).Nodup)
    (hot : (trans.map Prod.fst).Nodup)
    (hii : ∀ c ∈ item, (∀ p ∈ c.2, ∃ s, p.1 = PyKey.str s) ∧
      (c.2.map Prod.fst).Nodup)
    (hiu : ∀ c ∈ user, (∀ p ∈ c.2, ∃ s, p.1 = PyKey.str s) ∧
      (c.2.map Prod.fst).Nodup)
    (hit : ∀ c ∈ trans, (∀ p ∈ c.2, ∃ s, p.1 = PyKey.str s) ∧
      (c.2.map Prod.fst).Nodup) :
    (save_feature_dict item user trans).length = 3 ∧
    (save_feature_dict item user trans).map Prod.fst =
      ["item_feature_dict.json", "user_feature_dict.json",
       "trans_feature_dict.json"] ∧
    load_feature_dict (save_feature_dict item user trans) =
      some (item, user, trans) := by
  refine ⟨rfl, rfl, ?_⟩
  have hb1 : ("user_feature_dict.json" == "item_feature_dict.json") = false := by
    decide
  have hb2 : ("trans_feature_dict.json" == "item_feature_dict.json") = false := by
    decide
  have hb3 : ("trans_feature_dict.json" == "user_feature_dict.json") = false := by
    decide
  unfold load_feature_dict save_feature_dict
  simp only [List.lookup_cons, beq_self_eq_true, hb1, hb2, hb3]
  show some (parseDicts (dumpDicts item), parseDicts (dumpDicts user),
    parseDicts (dumpDicts trans)) = some (item, user, trans)
  rw [parseDicts_dumpDicts_id item hoi hii,
    parseDicts_dumpDicts_id user hou hiu,
    parseDicts_dumpDicts_id trans hot hit]

/-- C7 witness: a concrete string-keyed feature dict survives the
save-then-load round trip. -/
theorem claim_C7_save_load_roundtrip_witness :
    (save_feature_dict [("color", [(PyKey.str "red", 0)])] [] []).length = 3 ∧
    (save_feature_dict [("color", [(PyKey.str "red", 0)])] [] []).map Prod.fst =
      ["item_feature_dict.json", "user_feature_dict.json",
       "trans_feature_dict.json"] ∧
    load_feature_dict
        (save_feature_dict [("color", [(PyKey.str "red", 0)])] [] []) =
      some ([("color", [(PyKey.str "red", 0)])], [], []) :=
  claim_C7_save_load_roundtrip [("color", [(PyKey.str "red", 0)])] [] []
    (by decide) (by decide) (by decide)
    (by
      intro c hc
      rw [List.mem_singleton] at hc
      subst hc
      refine ⟨fun p hp => ?_, by decide⟩
      rw [List.mem_singleton] at hp
      exact ⟨"red", by rw [hp]⟩)
    (fun c hc => absurd hc (List.not_mem_nil c))
    (fun c hc => absurd hc (List.not_mem_nil c))

/-- C7 counterexample to the claim as stated: an integer-keyed vocabulary
does not survive the JSON round trip — the learned key `1` comes back as
the string `"1"`, so load does not restore the saved dictionary. -/
theorem claim_C7_counterexample :
    load_feature_dict (save_feature_dict [("col", [(PyKey.int 1, 0)])] [] []) =
      some ([("col", [(PyKey.str "1", 0)])], [], []) ∧
    ([("col", [(PyKey.str "1", 0)])] : List (String × List (PyKey × Nat))) ≠
      [("col", [(PyKey.int 1, 0)])] := by
  refine ⟨rfl, by decide⟩

/-- Option-valued map over a list, failing at the first failure (the
evaluation order of the underlying Python loops/library calls). -/
def pyMapM {α β : Type} (f : α → Option β) : List α → Option (List β)
  | [] => some []
  | a :: rest => do
      let b ← f a
      let bs ← pyMapM f rest
      pure (b :: bs)

/-- A successful `pyMapM` preserves the length. -/
theorem pyMapM_length {α β : Type} (f : α → Option β) :
    ∀ (l : List α) (out : List β), pyMapM f l = some out →
      out.length = l.length := by
  intro l
  induction l with
  | nil =>
      intro out h
      have : out = [] := by
        simpa [pyMapM] using h.symm
      rw [this]
      rfl
  | cons a rest ih =>
      intro out h
      cases hb : f a with
      | none => rw [pyMapM, hb] at h; exact absurd h (by simp)
      | some b =>
          cases hbs : pyMapM f rest with
          | none => rw [pyMapM, hb, hbs] at h; exact absurd h (by simp)
          | some bs =>
              rw [pyMapM, hb, hbs] at h
              have : b :: bs = out := by simpa using h
              rw [← this]
              simp [ih bs hbs]

/-- Every element of a successful `pyMapM` is the image of some input. -/
theorem pyMapM_mem {α β : Type} (f : α → Option β) :
    ∀ (l : List α) (out : List β), pyMapM f l = some out →
      ∀ b ∈ out, ∃ a ∈ l, f a = some b := by
  intro l
  induction l with
  | nil =>
      intro out h b hb
      have : out = [] := by simpa [pyMapM] using h.symm
      rw [this] at hb
      exact absurd hb (List.not_mem_nil b)
  | cons a rest ih =>
      intro out h b hb
      cases hfa : f a with
      | none => rw [pyMapM, hfa] at h; exact absurd h (by simp)
      | some b0 =>
          cases hbs : pyMapM f rest with
          | none => rw [pyMapM, hfa, hbs] at h; exact absurd h (by simp)
          | some bs =>
              rw [pyMapM, hfa, hbs] at h
              have hout : b0 :: bs = out := by simpa using h
              rw [← hout] at hb
              rcases List.mem_cons.mp hb with hb1 | hb2
              · exact ⟨a, List.mem_cons_self a rest, hb1 ▸ hfa⟩
              · obtain ⟨a', ha', hfa'⟩ := ih bs hbs b hb2
                exact ⟨a', List.mem_cons_of_mem a ha', hfa'⟩

/-- One row of `tokenizer(texts, max_length=config.max_desc_length,
truncation=True, padding='max_length', ...)` (data.py lines 116-126),
following the documented behavior of the external tokenizer call: truncate
the raw token list to `max_length`, then right-pad with the pad id up to
`max_length`.  `tok` is the abstract raw tokenization. -/
def tokenize_row (tok : String → List Nat) (maxLen padId : Nat) (s : String) :
    List Nat :=
  let t := (tok s).take maxLen
  t ++ List.replicate (maxLen - t.length) padId

/-- `desc_data` as produced by `prepare_features`: one tokenized row per
item description. -/
def prepare_desc (tok : String → List Nat) (maxLen padId : Nat)
    (descs : List String) : List (List Nat) :=
  descs.map (tokenize_row tok maxLen padId)

/-- One row of `tf.keras.preprocessing.sequence.pad_sequences(...,
maxlen=config.max_history_length, padding='pre', truncating='pre',
value=-1)` (data.py lines 297-300), following the documented behavior of
the external call: keep the last `maxlen` entries and left-pad with `-1`. -/
def pad_sequences_row (maxlen : Nat) (value : Int) (s : List Int) : List Int :=
  List.replicate (maxlen - s.length) value ++ s.drop (s.length - maxlen)

/-- The effective Python index: a negative index counts from the end. -/
def pyIndex {α : Type} (l : List α) (i : Int) : Int :=
  if 0 ≤ i then i else (l.length : Int) + i

/-- `df.iloc[i]` / NumPy row indexing with Python index semantics (the
padding value `-1` selects the last — padding — row); `none` is a raised
`IndexError`. -/
def pyIloc {α : Type} (l : List α) (i : Int) : Option α :=
  if 0 ≤ pyIndex l i then l[(pyIndex l i).toNat]? else none

/-- A successful `pyIloc` returns a row of the table. -/
theorem pyIloc_mem {α : Type} (l : List α) (i : Int) (a : α)
    (h : pyIloc l i = some a) : a ∈ l := by
  unfold pyIloc at h
  split_ifs at h
  exact List.getElem?_mem h

/-- The `items` tensor of `train_dataset` (data.py lines 297-306): each
train history is pre-padded/truncated to `max_history_length`, the padded
transaction indices are mapped through the `trans['item']` column, and the
flat result is reshaped to rows of length `max_history_length`. -/
def train_items (cfg : Config) (trans_item : List Int) (w : DataWrapper) :
    Option (List (List Int)) :=
  pyMapM (fun s =>
    pyMapM (fun ti => pyIloc trans_item ti)
      (pad_sequences_row cfg.max_history_length (-1) s)) w.trans_indices

/-- The `context` tensor of `train_dataset` (data.py lines 304-305): the
padded indices select rows of the (padded) `context_data` table, reshaped
to `(batch, max_history_length, number of transaction features)`. -/
def train_context (cfg : Config) (context_data : List (List Int))
    (w : DataWrapper) : Option (List (List (List Int))) :=
  pyMapM (fun s =>
    pyMapM (fun ti => pyIloc context_data ti)
      (pad_sequences_row cfg.max_history_length (-1) s)) w.trans_indices

/-- C8: output tensor shapes match the configured dimensions: every
tokenized description row produced by `prepare_features` has length
`max_desc_length`; every padded history produced by `train_dataset` has
length `max_history_length`; the `items` tensor has rows of length
`max_history_length`; and the `context` tensor has shape
`(batch, max_history_length, k)` where `k` is the number of transaction
features (the common length of the `context_data` rows). -/
theorem claim_C8_tensor_shapes (cfg : Config) (tok : String → List Nat)
    (padId : Nat) (descs : List String) (trans_item : List Int)
    (context_data : List (List Int)) (w : DataWrapper) (k : Nat)
    (hctx : ∀ row ∈ context_data, row.length = k) :
    (∀ row ∈ prepare_desc tok cfg.max_desc_length padId descs,
      row.length = cfg.max_desc_length) ∧
    (∀ s : List Int, (pad_sequences_row cfg.max_history_length (-1) s).length =
      cfg.max_history_length) ∧
    (∀ items, train_items cfg trans_item w = some items →
      ∀ row ∈ items, row.length = cfg.max_history_length) ∧
    (∀ ctx, train_context cfg context_data w = some ctx →
      ∀ mat ∈ ctx, mat.length = cfg.max_history_length ∧
        ∀ row ∈ mat, row.length = k) := by
  have hpad : ∀ s : List Int,
      (pad_sequences_row cfg.max_history_length (-1) s).length =
        cfg.max_history_length := by
    intro s
    unfold pad_sequences_row
    rw [List.length_append, List.length_replicate, List.length_drop]
    omega
  refine ⟨?_, hpad, ?_, ?_⟩
  · intro row hrow
    obtain ⟨s, _, hs⟩ := List.mem_map.mp hrow
    rw [← hs]
    simp only [tokenize_row]
    rw [List.length_append, List.length_replicate, List.length_take]
    omega
  · intro items hitems row hrow
    obtain ⟨s, hsmem, hs⟩ := pyMapM_mem _ w.trans_indices items hitems row hrow
    rw [pyMapM_length _ _ _ hs, hpad s]
  · intro ctx hctx2 mat hmat
    obtain ⟨s, hsmem, hs⟩ := pyMapM_mem _ w.trans_indices ctx hctx2 mat hmat
    constructor
    · rw [pyMapM_length _ _ _ hs, hpad s]
    · intro row hrow
      obtain ⟨ti, htim, hti⟩ := pyMapM_mem _ _ _ hs row hrow
      exact hctx row (pyIloc_mem context_data ti row hti)

/-- C8 witness: a concrete configuration with `max_history_length = 2`,
`max_desc_length = 3`, one item description and one train user. -/
theorem claim_C8_tensor_shapes_witness :
    (∀ row ∈ prepare_desc (fun _ => [7, 8, 9, 10])
        (Config.mk 2 1 3).max_desc_length 0 ["ab"],
      row.length = (Config.mk 2 1 3).max_desc_length) ∧
    (∀ s : List Int,
      (pad_sequences_row (Config.mk 2 1 3).max_history_length (-1) s).length =
        (Config.mk 2 1 3).max_history_length) ∧
    (∀ items, train_items ⟨2, 1, 3⟩ [5, 6] ⟨[0], [[0, 1, 0]], [], [(0, 0)]⟩ =
        some items →
      ∀ row ∈ items, row.length = (Config.mk 2 1 3).max_history_length) ∧
    (∀ ctx, train_context ⟨2, 1, 3⟩ [[1], [2]] ⟨[0], [[0, 1, 0]], [], [(0, 0)]⟩ =
        some ctx →
      ∀ mat ∈ ctx, mat.length = (Config.mk 2 1 3).max_history_length ∧
        ∀ row ∈ mat, row.length = 1) :=
  claim_C8_tensor_shapes ⟨2, 1, 3⟩ (fun _ => [7, 8, 9, 10]) 0 ["ab"] [5, 6]
    [[1], [2]] ⟨[0], [[0, 1, 0]], [], [(0, 0)]⟩ 1 (by decide)
